import Mathlib

/-!
Verification development for the bigquery-porter deployment planner.

The definitions below are shallow embeddings of the TypeScript sources:
* `topologicalSort` embeds the Kahn-style sorter of `src/util.ts`
  (src/unnamed/part_002, lines 244-285), including its JavaScript
  peculiarities: `Set` insertion order, `Array.pop` from the tail,
  the `if (!tgt) break` falsy-string check, and the `<= 0` refill filter.
  The JS `while` loop is embedded with an explicit fuel argument; the fuel
  passed by `topologicalSort` is `S.length + N.length`, which is exact
  because every iteration moves exactly one node out of the worklist.
* `TaskState`, `startTask`, `finishTask`, `runTask`, `doneTask` embed the
  `Task` class of `src/reporter.ts` (lines 53-92).  The asynchronous
  closure is represented by its outcome (`JobOutcome`).
* `planTaskClosure` embeds the per-task closure built by
  `pushBigQueryResourecs` (src/unnamed/part_001, lines 384-420): the set of
  awaited predecessor tasks, the suspension message assembled in the
  `catch` handler, and the decision to call the deploy executor.
* `jobDependencies` embeds the dependency computation of
  `pushBigQueryResourecs` (src/unnamed/part_001, lines 320-326) composed
  with `extractBigQueryDependencies` (lines 251-279).  The SQL parser is an
  external collaborator, so the reference list it produces is a parameter.
  `path2bq` and `normalizedBQPath` live in `src/bigquery.ts`, which is not
  among the sources; they are modelled from the spec (section 4.1).
* `deployViewSql` embeds the `view.sql` branch of `deployBigQueryResouce`
  (src/unnamed/part_001, lines 167-201) as a pure function from the
  warehouse responses to the emitted warehouse calls and returned message.
* `cleanupDeleteTaskRun` and `cleanupIsDryRun` embed the deletion-task
  closure and the option defaulting of `cleanupBigQueryDataset`
  (src/unnamed/part_000, lines 100-146).
-/

namespace BQPorter

/-! ### Topological sorter (src/util.ts, topologicalSort) -/

/-- Pointwise map update, the embedding of JavaScript `Map.set`. -/
def upd {α : Type} (f : String → α) (k : String) (v : α) : String → α :=
  fun x => if x = k then v else f x

/-- JavaScript `Set.add`: append the element unless already present
(insertion order is preserved, which `[...set]` later observes). -/
def addSet (l : List String) (x : String) : List String :=
  if x ∈ l then l else l ++ [x]

/-- The accumulator of the `relations.reduce` in `topologicalSort`:
`E` counts outgoing edges per source node (`E.get(src) ?? 0`),
`G` maps a destination to the set of its sources, and `N` is the
insertion-ordered set of all nodes. -/
structure TopoState where
  E : String → Int
  G : String → List String
  N : List String

/-- One step of the `relations.reduce` of `topologicalSort`:
`E.set(src, 1 + (E.get(src) ?? 0))`,
`G.set(dst, new Set([src, ...G.get(dst) ?? []]))`,
`N.add(dst); N.add(src)`. -/
def topoStep (st : TopoState) (r : String × String) : TopoState :=
  { E := upd st.E r.1 (1 + st.E r.1)
    G := upd st.G r.2 (r.1 :: (st.G r.2).filter (fun s => decide (s ≠ r.1)))
    N := addSet (addSet st.N r.2) r.1 }

/-- The `relations.reduce` of `topologicalSort`, starting from empty maps
and an empty node set. -/
def topoInit (relations : List (String × String)) : TopoState :=
  relations.foldl topoStep { E := fun _ => 0, G := fun _ => [], N := [] }

/-- The `while (S.length > 0)` loop of `topologicalSort`.
`S.pop()` removes the last element; `if (!tgt) break` fires exactly when
the popped string is empty (the only falsy string); emitting `tgt`
decrements `E` once for each member of `G.get(tgt)`; the refill collects
the nodes of `N` whose count dropped to `<= 0`, prepending them one by one
(`[n, ...ret]`) in front of the remaining stack, and deletes them from `N`.
The loop returns the pair `(L, N)`; `topologicalSort` then throws if `N`
is non-empty.  Fuel is consumed once per iteration. -/
def topoLoop (G : String → List String) :
    Nat → (String → Int) → List String → List String → List String →
      List String × List String
  | 0, _, N, _, L => (L, N)
  | fuel + 1, E, N, S, L =>
    match S with
    | [] => (L, N)
    | a :: rest =>
      let tgt := (a :: rest).getLast (List.cons_ne_nil a rest)
      if tgt = "" then (L, N)
      else
        let S1 := (a :: rest).dropLast
        let L1 := addSet L tgt
        let E1 := (G tgt).foldl (fun e n => upd e n (e n - 1)) E
        let ready := N.filter (fun n => decide (E1 n ≤ 0))
        topoLoop G fuel E1 (N.filter (fun n => decide (¬ E1 n ≤ 0)))
          (ready.reverse ++ S1) L1

/-- `topologicalSort` of src/util.ts.  Input: `(from, to)` edges meaning
`from` depends on `to`.  On success it returns the emission order `[...L]`;
if nodes remain in `N` when the worklist empties it throws
`Cycle detected: ...` naming the residual nodes, embedded here as
`.error` carrying the residual node list. -/
def topologicalSort (relations : List (String × String)) :
    Except (List String) (List String) :=
  let st := topoInit relations
  let S0 := st.N.filter (fun n => decide (st.E n = 0))
  let N0 := st.N.filter (fun n => decide (n ∉ S0))
  let r := topoLoop st.G (S0.length + N0.length) st.E N0 S0 []
  if r.2 = [] then .ok r.1 else .error r.2

/-- A node of the edge list: any string appearing as a source or a
destination of some edge. -/
def isNode (rel : List (String × String)) (n : String) : Prop :=
  ∃ p ∈ rel, p.1 = n ∨ p.2 = n

instance (rel : List (String × String)) (n : String) :
    Decidable (isNode rel n) := by
  unfold isNode; infer_instance

/-- `x` occupies a strictly earlier position than `y` in `L`. -/
def appearsBefore (L : List String) (x y : String) : Prop :=
  ∃ i j : Fin L.length, i < j ∧ L.get i = x ∧ L.get j = y

/-- Number of edges out of `n` whose destination has not been emitted yet.
The live value of `E.get(n)` maintained by the loop (for duplicate-free
edge lists). -/
def pendCount (rel : List (String × String)) (L : List String) (n : String) :
    Nat :=
  rel.countP (fun p => decide (p.1 = n ∧ p.2 ∉ L))

/-- What holds of the pair `(L, N)` produced by the worklist loop: the two
components partition the nodes without repetition, the emitted list `L`
places every destination before its sources, and every residual node of
`N` still has an unemitted destination. -/
def topoFinal (rel : List (String × String))
    (r : List String × List String) : Prop :=
  (∀ n, isNode rel n ↔ n ∈ r.1 ++ r.2) ∧
  (r.1 ++ r.2).Nodup ∧
  (∀ p ∈ rel, p.1 ∈ r.1 → appearsBefore r.1 p.2 p.1) ∧
  (∀ n ∈ r.2, 0 < pendCount rel r.1 n)

/-! ### Task primitive (src/reporter.ts, class Task) -/

/-- `Task.status` values. -/
inductive TaskStatus
  | pending
  | running
  | success
  | failed
deriving DecidableEq

/-- The observable state of a `Task`: its status and the `message` /
`error` slots filled by `run()`. -/
structure TaskState where
  status : TaskStatus
  message : Option String
  error : Option String
deriving DecidableEq

/-- The state of a freshly constructed `Task`. -/
def TaskState.initial : TaskState :=
  { status := .pending, message := none, error := none }

/-- The outcome of awaiting the worker closure: it either resolves with an
optional message or rejects with an error whose `message` is `errMessage`. -/
inductive JobOutcome
  | resolve (msg : Option String)
  | reject (errMessage : String)

/-- The synchronous beginning of `run()`: `this.status = 'running'`. -/
def startTask (t : TaskState) : TaskState :=
  { t with status := .running }

/-- The continuation of `run()` once the closure settles:
`.then` records `success` with the message, `.catch` records `failed`
with the trimmed error text. -/
def finishTask (t : TaskState) (o : JobOutcome) : TaskState :=
  match o with
  | .resolve msg => { t with status := .success, message := msg }
  | .reject e => { t with status := .failed, error := some e.trim }

/-- One complete invocation of `run()` given the closure outcome:
a no-op unless the status is `pending`. -/
def runTask (t : TaskState) (o : JobOutcome) : TaskState :=
  if t.status ≠ .pending then t else finishTask (startTask t) o

/-- `done()`: true in the two terminal states. -/
def doneTask (t : TaskState) : Bool :=
  t.status = .success || t.status = .failed

/-- Position of a status along the lifecycle
pending → running → {success, failed}. -/
def statusRank : TaskStatus → Nat
  | .pending => 0
  | .running => 1
  | .success => 2
  | .failed => 2

/-! ### Planner task closures (src/unnamed/part_001, pushBigQueryResourecs)

The closure of the task at position `ix` of namespace `ns` awaits the
`runningPromise` of every task of every dependency namespace and of every
earlier task of its own namespace.  If that `Promise.all` rejects — which
happens exactly when one of the awaited tasks failed — the `catch` handler
throws `Suspended: Parent job is faild: <names>` where the names are
collected from the dependency namespaces only; otherwise the closure calls
`deployBigQueryResouce`.  The embedding collapses the asynchronous await
into a snapshot of the task statuses at the moment the closure settles. -/

/-- A planner task as observed by a sibling closure: its name and status. -/
structure PlanTask where
  name : String
  status : TaskStatus
deriving DecidableEq

/-- The planner DAG: namespaces in topological order, each with its ordered
task list.  `dagTasks` is `DAG.get(ns)?.tasks ?? []` (a missing namespace
contributes nothing to `Promise.all`). -/
def dagTasks (dag : List (String × List PlanTask)) (ns : String) :
    List PlanTask :=
  match dag.find? (fun e => decide (e.1 = ns)) with
  | some e => e.2
  | none => []

/-- The awaited set of the closure (src/unnamed/part_001, lines 392-404):
all tasks of every dependency namespace, concatenated with the tasks of the
own namespace strictly before index `ix` (`slice(0, ix)`). -/
def awaitedTasks (dag : List (String × List PlanTask)) (deps : List String)
    (ns : String) (ix : Nat) : List PlanTask :=
  (deps.map (fun d => dagTasks dag d)).flatten ++ (dagTasks dag ns).take ix

/-- The names joined into the suspension message (lines 406-410): the
failed tasks of the dependency namespaces — the own namespace is not
consulted. -/
def failedParentNames (dag : List (String × List PlanTask))
    (deps : List String) : List String :=
  (((deps.map (fun d => dagTasks dag d)).flatten).filter
      (fun t => decide (t.status = .failed))).map (fun t => t.name)

/-- What the closure does once its awaits settle: throw the suspension
error, or invoke the deploy executor (the only warehouse-touching path). -/
inductive ClosureOutcome
  | suspended (msg : String)
  | deploy
deriving DecidableEq

/-- The decision logic of the closure: the `catch` handler runs exactly
when some awaited task failed, and throws the message assembled from the
failed dependency tasks; otherwise `deployBigQueryResouce` is invoked. -/
def planTaskClosure (dag : List (String × List PlanTask))
    (deps : List String) (ns : String) (ix : Nat) : ClosureOutcome :=
  if (awaitedTasks dag deps ns ix).any (fun t => decide (t.status = .failed))
  then .suspended ("Suspended: Parent job is faild: "
    ++ String.intercalate ", " (failedParentNames dag deps))
  else .deploy

/-! ### Path mapping and dependency extraction -/

/-- Splitting on a single separator character, written structurally over
the character list so that concrete applications reduce inside proofs;
behaves like JavaScript `split` with a one-character separator. -/
def splitOnCharAux (c : Char) : List Char → List Char → List String
  | [], acc => [String.mk acc.reverse]
  | x :: xs, acc =>
    if x = c then String.mk acc.reverse :: splitOnCharAux c xs []
    else splitOnCharAux c xs (x :: acc)

/-- `s.split(c)` for a one-character separator. -/
def splitOnChar (c : Char) (s : String) : List String :=
  splitOnCharAux c s.data []

/-- Modelled from the spec: section 4.1 `path2id(path, root, defaultProject)`
of the Path to Resource Mapper (the implementing `path2bq` lives in
`src/bigquery.ts`, which is not among the sources).  Strip the root, split
into segments, drop the filename, drop the `@routines` / `@models` kind
segments, substitute `@default` with the ambient project, and join the
remaining directory names with dots. -/
def path2bq (fpath rootPath defaultProject : String) : String :=
  let rel :=
    if (rootPath ++ "/").data.isPrefixOf fpath.data
    then fpath.drop (rootPath.length + 1)
    else fpath
  let segs := (splitOnChar '/' rel).filter (fun s => decide (s ≠ ""))
  let dirs := segs.dropLast
  let dirs := dirs.filter
    (fun s => decide (s ≠ "@routines" ∧ s ≠ "@models"))
  let dirs := dirs.map (fun s => if s = "@default" then defaultProject else s)
  String.intercalate "." dirs

/-- Modelled from the spec: section 4.1
`normalize(id, ambientProject, isSchemaOnly)` (the implementing
`normalizedBQPath` lives in `src/bigquery.ts`, not among the sources).
Pads a missing project with the ambient one; a schema-only reference keeps
only the first two dotted segments.  Identifiers already of full length,
and shapes the spec does not describe, are returned unchanged. -/
def normalizedBQPath (bqPath defaultProject : String) (isDataset : Bool) :
    String :=
  let parts := splitOnChar '.' bqPath
  if isDataset then
    match parts with
    | [dataset] => defaultProject ++ "." ++ dataset
    | [prj, dataset] => prj ++ "." ++ dataset
    | prj :: dataset :: _ :: _ => prj ++ "." ++ dataset
    | _ => bqPath
  else
    match parts with
    | [dataset, name] => defaultProject ++ "." ++ dataset ++ "." ++ name
    | _ => bqPath

/-- `n.replace(/\.[^.]+$/, '')`: remove the final dot segment when the
identifier has one (at least one non-dot character after the last dot). -/
def dropLastSegment (s : String) : String :=
  let parts := splitOnChar '.' s
  if parts.length ≤ 1 then s
  else if parts.getLastD "" = "" then s
  else String.intercalate "." parts.dropLast

/-- `[...new Set(list)]`: deduplicate keeping first occurrences in order. -/
def dedup (l : List String) : List String :=
  l.foldl (fun acc x => addSet acc x) []

/-- `extractBigQueryDependencies` (src/unnamed/part_001, lines 251-279).
The SQL parser is external, so the raw reference list `refsInput`
(`extractRefenrences(sql)`) is a parameter.  Normalizes the references,
adds their schemas, and appends the owning schema when the path has both a
schema and a resource component. -/
def extractBigQueryDependencies (rootPath fpath defaultProject : String)
    (refsInput : List String) : List String :=
  let parts := splitOnChar '.' (path2bq fpath rootPath defaultProject)
  let projectID := parts.getD 0 ""
  let schema := parts.get? 1
  let resource := parts.get? 2
  let refs := dedup (refsInput.map (fun r => normalizedBQPath r projectID false))
  let refs_schemas := refs.map dropLastSegment
  let additionals :=
    match schema, resource with
    | some s, some _ => [normalizedBQPath s projectID true]
    | _, _ => []
  dedup (refs_schemas ++ refs ++ additionals)

/-- The `dependencies` field built by `pushBigQueryResourecs`
(src/unnamed/part_001, lines 320-326).  Note the source filter
`.filter((n) => n !== path2bq(n, rootPath, defaultProjectId))`: its
parameter `n` shadows the file path `n` of the enclosing `map`, so the
comparison applies `path2bq` to each dependency identifier instead of to
the file. -/
def jobDependencies (rootPath defaultProject fpath : String)
    (refsInput : List String) : List String :=
  (extractBigQueryDependencies rootPath fpath defaultProject refsInput).filter
    (fun n => decide (n ≠ path2bq n rootPath defaultProject))

/-! ### Deploy executor, view.sql branch (src/unnamed/part_001, 167-201) -/

/-- The warehouse responses the `view.sql` branch consumes: the dry-run
flag of the job options, `ret.statistics?.totalBytesProcessed` of the
created query job, and `api.exists()` for the view. -/
structure ViewDeployEnv where
  dryRun : Bool
  dryRunTotalBytesProcessed : Option Nat
  viewExists : Bool

/-- The warehouse calls the `view.sql` branch can issue, in order. -/
inductive BQCall
  | createQueryJob (query : String) (dryRun : Bool)
  | tableExists (schemaId tableId : String)
  | tableGet (schemaId tableId : String)
  | createTable (schemaId tableId viewBody : String)
  | syncMetadataPush
deriving DecidableEq

/-- The query string composed for `view.sql`:
`` CREATE OR REPLACE VIEW `dataset.table` as\n<body> ``. -/
def composeViewQuery (schemaId tableId body : String) : String :=
  "CREATE OR REPLACE VIEW `" ++ schemaId ++ "." ++ tableId ++ "` as\n" ++ body

/-- Units used by `humanFileSize` with the default `si = false`. -/
def humanUnits : List String :=
  ["KiB", "MiB", "GiB", "TiB", "PiB", "EiB", "ZiB", "YiB"]

/-- `toFixed(1)` of the rational `n / den`, with halves rounded up; the
JavaScript original rounds binary floats, which agrees on the values the
claims touch. -/
def toFixed1 (n den : Nat) : String :=
  let t := (10 * n + den / 2) / den
  toString (t / 10) ++ "." ++ toString (t % 10)

/-- The do-while of `humanFileSize`: keep dividing by 1024 while the value
rounded to one decimal is still at least the threshold and units remain. -/
def humanLoop (bytes : Nat) : Nat → Nat → Nat
  | u, 0 => u
  | u, fuel + 1 =>
    let d := 1024 ^ (u + 1)
    let t := (10 * bytes + d / 2) / d
    if 10240 ≤ t ∧ u < 7 then humanLoop bytes (u + 1) fuel else u

/-- `humanFileSize(bytes)` of src/util.ts with the default arguments
(`si = false`, `dp = 1`): below 1024 the bytes are printed bare with a
`B` suffix; otherwise divided into binary units with one decimal. -/
def humanFileSize (bytes : Nat) : String :=
  if bytes < 1024 then toString bytes ++ "B"
  else
    let u := humanLoop bytes 0 8
    toFixed1 bytes (1024 ^ (u + 1)) ++ " " ++ humanUnits.getD u ""

/-- The `view.sql` branch of `deployBigQueryResouce` as a function from
the environment to the list of warehouse calls and the returned message.
`if (!tableId) return` is the empty-string guard.  When `dryRun` is set, a
dry-run query job is created; the estimated bytes are returned only when
`statistics.totalBytesProcessed` is present — otherwise control falls
through to the exists / get-or-create / syncMetadata sequence. -/
def deployViewSql (env : ViewDeployEnv) (schemaId tableId body : String) :
    List BQCall × Option String :=
  if tableId = "" then ([], none)
  else
    let dryCalls : List BQCall :=
      if env.dryRun
      then [.createQueryJob (composeViewQuery schemaId tableId body) true]
      else []
    match env.dryRun, env.dryRunTotalBytesProcessed with
    | true, some n => (dryCalls, some (humanFileSize n))
    | _, _ =>
      (dryCalls ++ [.tableExists schemaId tableId]
        ++ (if env.viewExists
            then [.tableGet schemaId tableId]
            else [.createTable schemaId tableId body])
        ++ [.syncMetadataPush],
       none)

/-! ### Reconciliation deletion tasks (src/unnamed/part_000) -/

/-- The observable effects of a deletion-task closure. -/
inductive CleanupEffect
  | logErr (msg : String)
  | deleteResource (bqId : String)
deriving DecidableEq

/-- The `try` body of the deletion-task closure
(src/unnamed/part_000, lines 134-143): log, then delete unless dry-run.
`deleteFails` tells whether `resource.delete()` would reject; the second
component is the error the body raises, if any. -/
def cleanupTryBody (isDryRun deleteFails : Bool) (bqId : String) :
    List CleanupEffect × Option String :=
  let logMsg := (if isDryRun then "(DRYRUN) " else "") ++ "Deleting " ++ bqId
  if isDryRun then ([.logErr logMsg], none)
  else ([.logErr logMsg, .deleteResource bqId],
        if deleteFails then some "delete failed" else none)

/-- One run of the deletion-task closure: the `catch (e) {}` swallows any
error of the body, and the closure then returns normally, so the task
outcome is always a resolution. -/
def cleanupDeleteTaskRun (isDryRun deleteFails : Bool) (bqId : String) :
    List CleanupEffect × JobOutcome :=
  ((cleanupTryBody isDryRun deleteFails bqId).1, .resolve none)

/-- The options object of `cleanupBigQueryDataset`: `dryRun` is optional
inside an optional record (`options?.dryRun`). -/
structure CleanupOptions where
  dryRun : Option Bool
  withoutConrimation : Bool
deriving DecidableEq

/-- `options?.dryRun ?? true` (src/unnamed/part_000, line 100). -/
def cleanupIsDryRun (options : Option CleanupOptions) : Bool :=
  (options.bind (fun o => o.dryRun)).getD true

/-! ## Basic lemmas about the map and set embeddings -/

theorem upd_same {α : Type} (f : String → α) (k : String) (v : α) :
    upd f k v k = v := by
  simp [upd]

theorem upd_ne {α : Type} (f : String → α) (k : String) (v : α) {x : String}
    (h : x ≠ k) : upd f k v x = f x := by
  simp [upd, h]

theorem mem_addSet {l : List String} {x y : String} :
    y ∈ addSet l x ↔ y ∈ l ∨ y = x := by
  unfold addSet
  by_cases h : x ∈ l
  · simp only [if_pos h]
    constructor
    · exact Or.inl
    · rintro (hy | rfl)
      · exact hy
      · exact h
  · simp [if_neg h]

theorem addSet_nodup {l : List String} {x : String} (h : l.Nodup) :
    (addSet l x).Nodup := by
  unfold addSet
  by_cases hx : x ∈ l
  · simpa [if_pos hx]
  · simpa [if_neg hx, List.nodup_append, h]

theorem addSet_eq_append {l : List String} {x : String} (h : x ∉ l) :
    addSet l x = l ++ [x] := by
  simp [addSet, if_neg h]

/-! ## Lemmas about `appearsBefore` -/

theorem appearsBefore.mem_left {L : List String} {x y : String}
    (h : appearsBefore L x y) : x ∈ L := by
  obtain ⟨i, j, _, hx, _⟩ := h
  exact hx ▸ L.get_mem i i.isLt

theorem appearsBefore.mem_right {L : List String} {x y : String}
    (h : appearsBefore L x y) : y ∈ L := by
  obtain ⟨i, j, _, _, hy⟩ := h
  exact hy ▸ L.get_mem j j.isLt

theorem appearsBefore_append {L M : List String} {x y : String}
    (h : appearsBefore L x y) : appearsBefore (L ++ M) x y := by
  obtain ⟨i, j, hij, hx, hy⟩ := h
  have hi : (i : Nat) < (L ++ M).length := by
    simp only [List.length_append]
    exact Nat.lt_of_lt_of_le i.isLt (Nat.le_add_right _ _)
  have hj : (j : Nat) < (L ++ M).length := by
    simp only [List.length_append]
    exact Nat.lt_of_lt_of_le j.isLt (Nat.le_add_right _ _)
  refine ⟨⟨i, hi⟩, ⟨j, hj⟩, hij, ?_, ?_⟩
  · simpa [List.get_eq_getElem, List.getElem_append_left i.isLt] using hx
  · simpa [List.get_eq_getElem, List.getElem_append_left j.isLt] using hy

theorem appearsBefore_concat {L : List String} {x t : String} (h : x ∈ L) :
    appearsBefore (L ++ [t]) x t := by
  obtain ⟨i, hx⟩ := List.get_of_mem h
  have hi : (i : Nat) < (L ++ [t]).length := by
    simp only [List.length_append, List.length_cons, List.length_nil]
    exact Nat.lt_of_lt_of_le i.isLt (Nat.le_add_right _ _)
  have hj : L.length < (L ++ [t]).length := by simp
  refine ⟨⟨i, hi⟩, ⟨L.length, hj⟩, i.isLt, ?_, ?_⟩
  · simpa [List.get_eq_getElem, List.getElem_append_left i.isLt] using hx
  · simp [List.get_eq_getElem, List.getElem_append_right (Nat.le_refl L.length)]

theorem appearsBefore_trans {L : List String} {x y z : String}
    (hnd : L.Nodup) (h1 : appearsBefore L x y) (h2 : appearsBefore L y z) :
    appearsBefore L x z := by
  obtain ⟨i, j, hij, hx, hy⟩ := h1
  obtain ⟨i2, j2, hij2, hy2, hz⟩ := h2
  have : j = i2 := (hnd.get_inj_iff).mp (hy.trans hy2.symm)
  exact ⟨i, j2, lt_trans (this ▸ hij) hij2, hx, hz⟩

theorem appearsBefore_irrefl {L : List String} {x : String}
    (hnd : L.Nodup) : ¬ appearsBefore L x x := by
  rintro ⟨i, j, hij, hx, hy⟩
  have : i = j := (hnd.get_inj_iff).mp (hx.trans hy.symm)
  exact absurd (this ▸ hij) (lt_irrefl j)

/-! ## Acyclicity machinery -/

/-- Bounded-length version of `exists_transGen_cycle`, proved by induction
on the length bound. -/
theorem exists_transGen_cycle_aux {α : Type} (R : α → α → Prop) :
    ∀ (n : Nat) (l : List α), l.length ≤ n → l ≠ [] →
      (∀ x ∈ l, ∃ y ∈ l, R x y) → ∃ c, Relation.TransGen R c c := by
  intro n
  induction n with
  | zero =>
    intro l hl hne _
    cases l with
    | nil => exact absurd rfl hne
    | cons a t => simp at hl
  | succ n ih =>
    intro l hl hne hsucc
    classical
    obtain ⟨a, ha⟩ := List.exists_mem_of_ne_nil l hne
    by_cases haa : Relation.TransGen R a a
    · exact ⟨a, haa⟩
    · set l' := l.filter (fun x => decide (Relation.TransGen R a x)) with hl'
      have hmem : ∀ x, x ∈ l' ↔ x ∈ l ∧ Relation.TransGen R a x := by
        intro x
        simp [hl', List.mem_filter]
      have hlen : l'.length < l.length := by
        refine List.length_filter_lt_length_iff_exists.mpr ⟨a, ha, ?_⟩
        simpa using haa
      obtain ⟨b, hb, hab⟩ := hsucc a ha
      have hbne : l' ≠ [] := by
        intro hemp
        have : b ∈ l' := (hmem b).mpr ⟨hb, Relation.TransGen.single hab⟩
        rw [hemp] at this
        exact absurd this (List.not_mem_nil b)
      refine ih l' (by omega) hbne ?_
      intro x hx
      obtain ⟨hxl, hax⟩ := (hmem x).mp hx
      obtain ⟨y, hy, hxy⟩ := hsucc x hxl
      exact ⟨y, (hmem y).mpr ⟨hy, Relation.TransGen.tail hax hxy⟩, hxy⟩

/-- If every member of a non-empty finite set has a successor inside the
set, the relation has a cycle. -/
theorem exists_transGen_cycle {α : Type} (R : α → α → Prop) (l : List α)
    (hne : l ≠ []) (hsucc : ∀ x ∈ l, ∃ y ∈ l, R x y) :
    ∃ c, Relation.TransGen R c c :=
  exists_transGen_cycle_aux R l.length l (Nat.le_refl _) hne hsucc

/-- A rank function that strictly drops along every edge rules out cycles;
used to certify acyclicity of concrete edge lists. -/
theorem acyclic_of_rank {rel : List (String × String)} (f : String → Nat)
    (hf : ∀ p ∈ rel, f p.2 < f p.1) :
    ∀ a, ¬ Relation.TransGen (fun x y => (x, y) ∈ rel) a a := by
  have hdrop : ∀ x y, Relation.TransGen (fun x y => (x, y) ∈ rel) x y →
      f y < f x := by
    intro x y h
    induction h with
    | single h1 => exact hf _ h1
    | tail _ h2 ih => exact lt_trans (hf _ h2) ih
  intro a haa
  exact absurd (hdrop a a haa) (lt_irrefl (f a))

/-! ## Lemmas about `topoInit` -/

theorem foldl_topoStep_E (rel : List (String × String)) (st : TopoState)
    (n : String) :
    (rel.foldl topoStep st).E n
      = st.E n + (rel.countP (fun p => decide (p.1 = n)) : Int) := by
  induction rel generalizing st with
  | nil => simp
  | cons r rest ih =>
    rw [List.foldl_cons, ih, List.countP_cons]
    by_cases h : r.1 = n
    · subst h
      simp only [topoStep, upd_same]
      split
      · push_cast
        ring
      · next hfalse => exact absurd (by simp) hfalse
    · have hns : n ≠ r.1 := fun hn => h hn.symm
      rw [if_neg (show ¬ decide (r.1 = n) = true by simp [h])]
      simp only [topoStep, upd_ne _ _ _ hns]
      omega

theorem foldl_topoStep_G_mem (rel : List (String × String)) (st : TopoState)
    (d s : String) :
    s ∈ (rel.foldl topoStep st).G d ↔ s ∈ st.G d ∨ (s, d) ∈ rel := by
  induction rel generalizing st with
  | nil => simp
  | cons r rest ih =>
    rw [List.foldl_cons, ih]
    by_cases h : d = r.2
    · subst h
      simp only [topoStep, upd_same, List.mem_cons, List.mem_filter,
        decide_eq_true_eq]
      constructor
      · rintro (⟨rfl | ⟨hm, _⟩⟩ | hrest)
        · exact Or.inr (Or.inl (Prod.ext rfl rfl))
        · exact Or.inl hm
        · exact Or.inr (Or.inr hrest)
      · rintro (hm | hr | hrest)
        · by_cases hs : s = r.1
          · exact Or.inl (Or.inl hs)
          · exact Or.inl (Or.inr ⟨hm, hs⟩)
        · have h1 : s = r.1 := by rw [← hr]
          exact Or.inl (Or.inl h1)
        · exact Or.inr hrest
    · have hne : (s, d) ≠ r := fun he => h (by rw [← he])
      simp only [topoStep, upd_ne _ _ _ h, List.mem_cons]
      constructor
      · rintro (hm | hrest)
        · exact Or.inl hm
        · exact Or.inr (Or.inr hrest)
      · rintro (hm | hr | hrest)
        · exact Or.inl hm
        · exact absurd hr hne
        · exact Or.inr hrest

theorem foldl_topoStep_G_nodup (rel : List (String × String)) (st : TopoState)
    (hst : ∀ d, (st.G d).Nodup) : ∀ d, ((rel.foldl topoStep st).G d).Nodup := by
  induction rel generalizing st with
  | nil => exact hst
  | cons r rest ih =>
    rw [List.foldl_cons]
    refine ih _ ?_
    intro d
    by_cases h : d = r.2
    · subst h
      simp only [topoStep, upd_same, List.nodup_cons]
      refine ⟨?_, (hst r.2).filter _⟩
      intro hmem
      have := (List.mem_filter.mp hmem).2
      simp at this
    · simpa only [topoStep, upd_ne _ _ _ h] using hst d

theorem foldl_topoStep_N_mem (rel : List (String × String)) (st : TopoState)
    (n : String) :
    n ∈ (rel.foldl topoStep st).N ↔ n ∈ st.N ∨ isNode rel n := by
  induction rel generalizing st with
  | nil => simp [isNode]
  | cons r rest ih =>
    rw [List.foldl_cons, ih]
    simp only [topoStep, mem_addSet, isNode, List.mem_cons]
    constructor
    · rintro (((hm | h2) | h1) | ⟨p, hp, hc⟩)
      · exact Or.inl hm
      · exact Or.inr ⟨r, Or.inl rfl, Or.inr h2.symm⟩
      · exact Or.inr ⟨r, Or.inl rfl, Or.inl h1.symm⟩
      · exact Or.inr ⟨p, Or.inr hp, hc⟩
    · rintro (hm | ⟨p, hp | hp, hc⟩)
      · exact Or.inl (Or.inl (Or.inl hm))
      · subst hp
        rcases hc with h1 | h2
        · exact Or.inl (Or.inr h1.symm)
        · exact Or.inl (Or.inl (Or.inr h2.symm))
      · exact Or.inr ⟨p, hp, hc⟩

theorem foldl_topoStep_N_nodup (rel : List (String × String)) (st : TopoState)
    (hst : st.N.Nodup) : (rel.foldl topoStep st).N.Nodup := by
  induction rel generalizing st with
  | nil => exact hst
  | cons r rest ih =>
    rw [List.foldl_cons]
    exact ih _ (addSet_nodup (addSet_nodup hst))

theorem topoInit_E (rel : List (String × String)) (n : String) :
    (topoInit rel).E n = (rel.countP (fun p => decide (p.1 = n)) : Int) := by
  unfold topoInit
  rw [foldl_topoStep_E]
  simp

theorem topoInit_G_mem (rel : List (String × String)) (d s : String) :
    s ∈ (topoInit rel).G d ↔ (s, d) ∈ rel := by
  unfold topoInit
  rw [foldl_topoStep_G_mem]
  simp

theorem topoInit_G_nodup (rel : List (String × String)) (d : String) :
    ((topoInit rel).G d).Nodup :=
  foldl_topoStep_G_nodup rel _ (fun _ => List.nodup_nil) d

theorem topoInit_N_mem (rel : List (String × String)) (n : String) :
    n ∈ (topoInit rel).N ↔ isNode rel n := by
  unfold topoInit
  rw [foldl_topoStep_N_mem]
  simp

theorem topoInit_N_nodup (rel : List (String × String)) :
    (topoInit rel).N.Nodup :=
  foldl_topoStep_N_nodup rel _ List.nodup_nil

/-! ## Lemmas about `pendCount` -/

theorem pendCount_nil (rel : List (String × String)) (n : String) :
    pendCount rel [] n = rel.countP (fun p => decide (p.1 = n)) := by
  unfold pendCount
  refine List.countP_congr ?_
  intro p _
  simp

theorem pendCount_eq_zero {rel : List (String × String)} {L : List String}
    {n : String} :
    pendCount rel L n = 0 ↔ ∀ p ∈ rel, p.1 = n → p.2 ∈ L := by
  unfold pendCount
  rw [List.countP_eq_zero]
  constructor
  · intro h p hp h1
    by_contra h2
    exact h p hp (by simp [h1, h2])
  · intro h p hp
    simp only [decide_eq_true_eq, not_and, not_not]
    intro h1
    exact h p hp h1

theorem pendCount_pos {rel : List (String × String)} {L : List String}
    {n : String} :
    0 < pendCount rel L n ↔ ∃ p ∈ rel, p.1 = n ∧ p.2 ∉ L := by
  unfold pendCount
  rw [List.countP_pos]
  simp

theorem pendCount_append_singleton {rel : List (String × String)}
    (hrel : rel.Nodup) {L : List String} {tgt : String} (htgt : tgt ∉ L)
    (n : String) :
    pendCount rel L n
      = pendCount rel (L ++ [tgt]) n + (if (n, tgt) ∈ rel then 1 else 0) := by
  induction rel with
  | nil => simp [pendCount]
  | cons p ps ih =>
    have hp : p ∉ ps := (List.nodup_cons.mp hrel).1
    have hps : ps.Nodup := (List.nodup_cons.mp hrel).2
    unfold pendCount at *
    rw [List.countP_cons, List.countP_cons]
    by_cases hpt : p = (n, tgt)
    · subst hpt
      have hhead1 : decide ((n, tgt).1 = n ∧ (n, tgt).2 ∉ L) = true := by
        simp [htgt]
      have hhead2 :
          decide ((n, tgt).1 = n ∧ (n, tgt).2 ∉ L ++ [tgt]) = false := by
        simp
      rw [hhead1, hhead2]
      have hcong : ps.countP (fun q => decide (q.1 = n ∧ q.2 ∉ L))
          = ps.countP (fun q => decide (q.1 = n ∧ q.2 ∉ L ++ [tgt])) := by
        refine List.countP_congr ?_
        intro q hq
        have hqne : q ≠ (n, tgt) := fun he => hp (he ▸ hq)
        by_cases h1 : q.1 = n
        · have h2 : q.2 ≠ tgt := by
            intro h2
            exact hqne (Prod.ext h1 h2)
          simp [h1, h2]
        · simp [h1]
      rw [hcong]
      simp [hp]
    · have hmem : ((n, tgt) ∈ p :: ps) ↔ ((n, tgt) ∈ ps) := by
        simp only [List.mem_cons]
        constructor
        · rintro (he | hm)
          · exact absurd he.symm hpt
          · exact hm
        · exact Or.inr
      simp only [hmem]
      have hhead : decide (p.1 = n ∧ p.2 ∉ L ++ [tgt])
          = decide (p.1 = n ∧ p.2 ∉ L) := by
        by_cases h1 : p.1 = n
        · have h2 : p.2 ≠ tgt := by
            intro h2
            exact hpt (Prod.ext h1 h2)
          simp [h1, h2]
        · simp [h1]
      simp only [hhead]
      rw [ih hps]
      omega

/-- Decrementing through `G.get(tgt)` with `E.set(n, -1 + E.get(n))`
subtracts one exactly at the members of a duplicate-free list. -/
theorem foldl_dec_upd (l : List String) (hl : l.Nodup) (E : String → Int)
    (n : String) :
    (l.foldl (fun e m => upd e m (e m - 1)) E) n
      = E n - (if n ∈ l then 1 else 0) := by
  induction l generalizing E with
  | nil => simp
  | cons m ms ih =>
    have hnd := List.nodup_cons.mp hl
    rw [List.foldl_cons, ih hnd.2]
    by_cases h : n = m
    · subst h
      have : n ∉ ms := hnd.1
      simp [upd_same, this]
    · simp only [upd_ne _ _ _ h, List.mem_cons]
      have : (n ∈ ms ∨ n = m) ↔ n ∈ ms := by
        constructor
        · rintro (hm | rfl)
          · exact hm
          · exact absurd rfl h
        · exact Or.inl
      simp only [h, false_or]

/-! ## The worklist loop invariant -/

/-- Main invariant of the `while` loop of `topologicalSort`: for
duplicate-free edge lists with non-empty node names, starting from a state
in which `E` carries the pending counts, the emitted list, the stack and
the node set partition the nodes, stack members have all destinations
emitted, and the emitted list is topologically ordered, the loop ends in a
state satisfying `topoFinal`. -/
theorem topoLoop_invariant (rel : List (String × String)) (hrel : rel.Nodup)
    (hne : ∀ p ∈ rel, p.1 ≠ "" ∧ p.2 ≠ "") :
    ∀ (fuel : Nat) (E : String → Int) (N S L : List String),
      S.length + N.length ≤ fuel →
      (∀ n, E n = (pendCount rel L n : Int)) →
      (∀ n, isNode rel n ↔ n ∈ L ++ S ++ N) →
      (L ++ S ++ N).Nodup →
      (∀ p ∈ rel, p.1 ∈ S → p.2 ∈ L) →
      (∀ p ∈ rel, p.1 ∈ L → appearsBefore L p.2 p.1) →
      (∀ n ∈ N, 0 < pendCount rel L n) →
      topoFinal rel (topoLoop (topoInit rel).G fuel E N S L) := by
  intro fuel
  induction fuel with
  | zero =>
    intro E N S L hfuel hE hmem hnd hSL hord hNpos
    have hS : S = [] := List.length_eq_zero.mp (by omega)
    have hN : N = [] := List.length_eq_zero.mp (by omega)
    subst hS
    subst hN
    show topoFinal rel (L, [])
    unfold topoFinal
    refine ⟨?_, ?_, ?_, ?_⟩
    · intro n
      simpa using hmem n
    · simpa using hnd
    · intro p hp h1
      exact hord p hp h1
    · intro n hn
      simp at hn
  | succ fuel ih =>
    intro E N S L hfuel hE hmem hnd hSL hord hNpos
    cases S with
    | nil =>
      show topoFinal rel (L, N)
      unfold topoFinal
      refine ⟨?_, ?_, ?_, ?_⟩
      · intro n
        simpa using hmem n
      · simpa using hnd
      · intro p hp h1
        exact hord p hp h1
      · exact hNpos
    | cons a rest =>
      set G0 := (topoInit rel).G with hG0
      set tgt := (a :: rest).getLast (List.cons_ne_nil a rest) with htgtdef
      have htS : tgt ∈ a :: rest := List.getLast_mem _
      have htnode : isNode rel tgt := (hmem tgt).mpr
        (by simp only [List.mem_append]; exact Or.inl (Or.inr htS))
      have htne : tgt ≠ "" := by
        obtain ⟨p, hp, hc⟩ := htnode
        have hcomp := hne p hp
        rcases hc with h1 | h2
        · exact h1 ▸ hcomp.1
        · exact h2 ▸ hcomp.2
      obtain ⟨hndLS, hndN, hdisLSN⟩ := List.nodup_append.mp hnd
      obtain ⟨hndL, hndS, hdisLS⟩ := List.nodup_append.mp hndLS
      have htL : tgt ∉ L := fun h => hdisLS h htS
      have htN : tgt ∉ N := fun h =>
        hdisLSN (List.mem_append.mpr (Or.inr htS)) h
      set E1 := (G0 tgt).foldl (fun e n => upd e n (e n - 1)) E with hE1def
      set L1 := addSet L tgt with hL1def
      set ready := N.filter (fun n => decide (E1 n ≤ 0)) with hreadydef
      set N1 := N.filter (fun n => decide (¬ E1 n ≤ 0)) with hN1def
      set S1 := (a :: rest).dropLast with hS1def
      set S2 := ready.reverse ++ S1 with hS2def
      have hstep : topoLoop G0 (fuel + 1) E N (a :: rest) L
          = topoLoop G0 fuel E1 N1 S2 L1 := by
        show (if tgt = "" then (L, N) else topoLoop G0 fuel E1 N1 S2 L1)
            = topoLoop G0 fuel E1 N1 S2 L1
        rw [if_neg htne]
      have hL1 : L1 = L ++ [tgt] := addSet_eq_append htL
      have hE1 : ∀ n, E1 n = (pendCount rel L1 n : Int) := by
        intro n
        rw [hE1def, foldl_dec_upd _ (topoInit_G_nodup rel tgt) E n, hE n,
          hL1, pendCount_append_singleton hrel htL n]
        have hmemG : n ∈ G0 tgt ↔ (n, tgt) ∈ rel := topoInit_G_mem rel tgt n
        by_cases hc : (n, tgt) ∈ rel
        · rw [if_pos (hmemG.mpr hc), if_pos hc]
          push_cast
          ring
        · rw [if_neg (fun h => hc (hmemG.mp h)), if_neg hc]
          push_cast
          ring
      have hpermN : (ready ++ N1).Perm N := by
        have hfun : (fun n => decide (¬ E1 n ≤ 0))
            = (fun n => !decide (E1 n ≤ 0)) := by
          funext n
          rw [decide_not]
        rw [hreadydef, hN1def, hfun]
        exact List.filter_append_perm _ N
      have hperm : (L1 ++ S2 ++ N1).Perm (L ++ (a :: rest) ++ N) := by
        rw [← Multiset.coe_eq_coe]
        have hS' : (a :: rest) = S1 ++ [tgt] :=
          (List.dropLast_append_getLast (List.cons_ne_nil a rest)).symm
        have hN' : (↑(ready ++ N1) : Multiset String) = (↑N : Multiset String) :=
          Multiset.coe_eq_coe.mpr hpermN
        rw [hL1, hS2def]
        conv_rhs => rw [hS']
        simp only [← Multiset.coe_add, Multiset.coe_reverse]
        rw [← hN']
        simp only [← Multiset.coe_add]
        abel
      have hmem1 : ∀ n, isNode rel n ↔ n ∈ L1 ++ S2 ++ N1 := by
        intro n
        rw [hperm.mem_iff]
        exact hmem n
      have hnd1 : (L1 ++ S2 ++ N1).Nodup := hperm.nodup_iff.mpr hnd
      have hready_mem : ∀ n, n ∈ ready → pendCount rel L1 n = 0 := by
        intro n hn
        rw [hreadydef] at hn
        obtain ⟨hnN, hcond⟩ := List.mem_filter.mp hn
        have hle := of_decide_eq_true hcond
        rw [hE1 n] at hle
        omega
      have hSL1 : ∀ p ∈ rel, p.1 ∈ S2 → p.2 ∈ L1 := by
        intro p hp hmem2
        rw [hS2def] at hmem2
        rcases List.mem_append.mp hmem2 with h1 | h2
        · have h1' := List.mem_reverse.mp h1
          exact pendCount_eq_zero.mp (hready_mem _ h1') p hp rfl
        · rw [hS1def] at h2
          have hmem3 : p.1 ∈ a :: rest := List.mem_of_mem_dropLast h2
          have hpL := hSL p hp hmem3
          rw [hL1]
          exact List.mem_append.mpr (Or.inl hpL)
      have hord1 : ∀ p ∈ rel, p.1 ∈ L1 → appearsBefore L1 p.2 p.1 := by
        intro p hp hmem2
        rw [hL1] at hmem2 ⊢
        rcases List.mem_append.mp hmem2 with h1 | h2
        · exact appearsBefore_append (hord p hp h1)
        · have h2' : p.1 = tgt := by simpa using h2
          have hS' : p.1 ∈ a :: rest := h2' ▸ htS
          have hpL : p.2 ∈ L := hSL p hp hS'
          rw [h2']
          exact appearsBefore_concat hpL
      have hNpos1 : ∀ n ∈ N1, 0 < pendCount rel L1 n := by
        intro n hn
        rw [hN1def] at hn
        obtain ⟨hnN, hcond⟩ := List.mem_filter.mp hn
        have hgt := of_decide_eq_true hcond
        rw [hE1 n] at hgt
        omega
      have hlen : S2.length + N1.length ≤ fuel := by
        have h1 : ready.length + N1.length = N.length := by
          have := hpermN.length_eq
          simpa using this
        have h2 : S1.length = rest.length := by
          rw [hS1def]
          simp
        have h3 : S2.length = ready.length + S1.length := by
          rw [hS2def]
          simp
        have h4 : (a :: rest).length = rest.length + 1 := by simp
        rw [h4] at hfuel
        omega
      rw [hstep]
      exact ih E1 N1 S2 L1 hlen hE1 hmem1 hnd1 hSL1 hord1 hNpos1


/-! ## End-to-end behaviour of `topologicalSort` -/

/-- For duplicate-free edge lists with non-empty node names,
`topologicalSort` either returns a duplicate-free enumeration of all nodes
in which every destination precedes its sources, or throws with a
non-empty duplicate-free residual node list in which every member still
depends on another member. -/
theorem topologicalSort_spec (rel : List (String × String))
    (hrel : rel.Nodup) (hne : ∀ p ∈ rel, p.1 ≠ "" ∧ p.2 ≠ "") :
    (∃ L, topologicalSort rel = .ok L ∧ L.Nodup ∧
      (∀ n, n ∈ L ↔ isNode rel n) ∧ ∀ p ∈ rel, appearsBefore L p.2 p.1) ∨
    (∃ r, topologicalSort rel = .error r ∧ r ≠ [] ∧ r.Nodup ∧
      ∀ n ∈ r, isNode rel n ∧ ∃ d ∈ r, (n, d) ∈ rel) := by
  set st := topoInit rel with hstdef
  set S0 := st.N.filter (fun n => decide (st.E n = 0)) with hS0def
  set N0 := st.N.filter (fun n => decide (n ∉ S0)) with hN0def
  set res := topoLoop st.G (S0.length + N0.length) st.E N0 S0 [] with hresdef
  have hts : topologicalSort rel
      = if res.2 = [] then .ok res.1 else .error res.2 := rfl
  have hN0alt : N0 = st.N.filter (fun n => !decide (st.E n = 0)) := by
    rw [hN0def]
    refine List.filter_congr ?_
    intro x hx
    by_cases hq : st.E x = 0
    · have hxS : x ∈ S0 := by
        rw [hS0def]
        exact List.mem_filter.mpr ⟨hx, by simp [hq]⟩
      simp [hxS, hq]
    · have hxS : x ∉ S0 := by
        rw [hS0def]
        intro hmem
        exact hq (of_decide_eq_true (List.mem_filter.mp hmem).2)
      simp [hxS, hq]
  have hperm0 : (S0 ++ N0).Perm st.N := by
    rw [hN0alt, hS0def]
    exact List.filter_append_perm _ st.N
  have hE0 : ∀ n, st.E n = (pendCount rel [] n : Int) := by
    intro n
    rw [hstdef, topoInit_E, pendCount_nil]
  have hmem0 : ∀ n, isNode rel n ↔ n ∈ [] ++ S0 ++ N0 := by
    intro n
    rw [← topoInit_N_mem rel n, ← hperm0.mem_iff]
    simp
  have hnd0 : (([] : List String) ++ S0 ++ N0).Nodup := by
    have := hperm0.nodup_iff.mpr (topoInit_N_nodup rel)
    simpa using this
  have hSL0 : ∀ p ∈ rel, p.1 ∈ S0 → p.2 ∈ ([] : List String) := by
    intro p hp hmem1
    exfalso
    rw [hS0def] at hmem1
    have hz := of_decide_eq_true (List.mem_filter.mp hmem1).2
    rw [hstdef, topoInit_E] at hz
    have hz2 : rel.countP (fun q => decide (q.1 = p.1)) = 0 := by
      exact_mod_cast hz
    have := List.countP_eq_zero.mp hz2 p hp
    simp at this
  have hord0 : ∀ p ∈ rel, p.1 ∈ ([] : List String) →
      appearsBefore [] p.2 p.1 := by
    intro p _ h
    simp at h
  have hNpos0 : ∀ n ∈ N0, 0 < pendCount rel [] n := by
    intro n hn
    rw [hN0alt] at hn
    obtain ⟨hnN, hcond⟩ := List.mem_filter.mp hn
    have hnz : ¬ st.E n = 0 := by
      intro h
      rw [h] at hcond
      simp at hcond
    rw [hstdef, topoInit_E] at hnz
    rw [pendCount_nil]
    have : rel.countP (fun q => decide (q.1 = n)) ≠ 0 := by
      intro h
      exact hnz (by exact_mod_cast congrArg Nat.cast h)
    omega
  have hfinal := topoLoop_invariant rel hrel hne (S0.length + N0.length)
    st.E N0 S0 [] (Nat.le_refl _) hE0 hmem0 hnd0 hSL0 hord0 hNpos0
  rw [← hstdef, ← hresdef] at hfinal
  obtain ⟨hmemF, hndF, hordF, hNposF⟩ := hfinal
  by_cases hres : res.2 = []
  · left
    refine ⟨res.1, by rw [hts, if_pos hres], ?_, ?_, ?_⟩
    · have := hndF
      rw [hres] at this
      simpa using this
    · intro n
      have := hmemF n
      rw [hres] at this
      simp only [List.append_nil] at this
      exact this.symm
    · intro p hp
      have hnode : isNode rel p.1 := ⟨p, hp, Or.inl rfl⟩
      have hmem1 : p.1 ∈ res.1 := by
        have := (hmemF p.1).mp hnode
        rw [hres] at this
        simpa using this
      exact hordF p hp hmem1
  · right
    refine ⟨res.2, by rw [hts, if_neg hres], hres, ?_, ?_⟩
    · exact (List.nodup_append.mp hndF).2.1
    · intro n hn
      have hnode : isNode rel n :=
        (hmemF n).mpr (List.mem_append.mpr (Or.inr hn))
      refine ⟨hnode, ?_⟩
      obtain ⟨p, hp, hp1, hp2⟩ := pendCount_pos.mp (hNposF n hn)
      have hdnode : isNode rel p.2 := ⟨p, hp, Or.inr rfl⟩
      have hdmem : p.2 ∈ res.1 ++ res.2 := (hmemF p.2).mp hdnode
      have hdr : p.2 ∈ res.2 := by
        rcases List.mem_append.mp hdmem with h | h
        · exact absurd h hp2
        · exact h
      refine ⟨p.2, hdr, ?_⟩
      have : (n, p.2) = p := by
        rw [← hp1]
      rw [this]
      exact hp

/-- In a topologically ordered complete enumeration, reachability along
edges translates into strict positional order. -/
theorem transGen_before {rel : List (String × String)} {L : List String}
    (hnd : L.Nodup) (hord : ∀ p ∈ rel, appearsBefore L p.2 p.1) :
    ∀ a b, Relation.TransGen (fun x y => (x, y) ∈ rel) a b →
      appearsBefore L b a := by
  intro a b h
  induction h with
  | single h1 => exact hord _ h1
  | tail _ hbc ih => exact appearsBefore_trans hnd (hord _ hbc) ih

/-- C1 (corrected): for every duplicate-free input edge list whose node
names are non-empty and whose edge set is acyclic, `topologicalSort`
returns a list containing every node of the edge list exactly once, in
which, for every edge `(from, to)`, the depended-on node `to` appears
strictly before the depending node `from`. -/
theorem topologicalSort_acyclic_correct (rel : List (String × String))
    (hrel : rel.Nodup) (hne : ∀ p ∈ rel, p.1 ≠ "" ∧ p.2 ≠ "")
    (hacyc : ∀ a, ¬ Relation.TransGen (fun x y => (x, y) ∈ rel) a a) :
    ∃ L, topologicalSort rel = .ok L ∧ L.Nodup ∧
      (∀ n, n ∈ L ↔ isNode rel n) ∧ ∀ p ∈ rel, appearsBefore L p.2 p.1 := by
  rcases topologicalSort_spec rel hrel hne with h | h
  · exact h
  · exfalso
    obtain ⟨r, _, hrne, _, hres⟩ := h
    obtain ⟨c, hc⟩ := exists_transGen_cycle (fun x y => (x, y) ∈ rel) r hrne
      (fun x hx => (hres x hx).2)
    exact hacyc c hc

/-- C1 counterexample: the claim quantifies over every acyclic edge list,
but a duplicated edge makes the sorter throw on an acyclic input, and an
empty-string node (falsy in JavaScript) breaks the loop early, so the node
is missing from the returned order. -/
theorem topologicalSort_C1_counterexample :
    (∀ a, ¬ Relation.TransGen
        (fun x y => (x, y) ∈ [("a", "b"), ("a", "b")]) a a) ∧
    topologicalSort [("a", "b"), ("a", "b")] = .error ["a"] ∧
    (∀ a, ¬ Relation.TransGen (fun x y => (x, y) ∈ [("", "a")]) a a) ∧
    topologicalSort [("", "a")] = .ok ["a"] ∧
    isNode [("", "a")] "" ∧ "" ∉ (["a"] : List String) := by
  refine ⟨?_, rfl, ?_, rfl, ?_, ?_⟩
  · exact acyclic_of_rank (fun s => if s = "a" then 1 else 0) (by decide)
  · exact acyclic_of_rank (fun s => if s = "" then 1 else 0) (by decide)
  · decide
  · decide

/-- C1 witness: the corrected statement applied to the edge list
`[("a", "b")]`, whose hypotheses hold by computation. -/
theorem topologicalSort_C1_witness :
    ([("a", "b")] : List (String × String)).Nodup ∧
    (∀ p ∈ [("a", "b")], p.1 ≠ "" ∧ p.2 ≠ "") ∧
    (∀ a, ¬ Relation.TransGen (fun x y => (x, y) ∈ [("a", "b")]) a a) ∧
    ∃ L, topologicalSort [("a", "b")] = .ok L ∧ L.Nodup ∧
      (∀ n, n ∈ L ↔ isNode [("a", "b")] n) ∧
      ∀ p ∈ [("a", "b")], appearsBefore L p.2 p.1 := by
  have hnd : ([("a", "b")] : List (String × String)).Nodup := by decide
  have hne : ∀ p ∈ [("a", "b")], p.1 ≠ "" ∧ p.2 ≠ "" := by decide
  have hacyc : ∀ a, ¬ Relation.TransGen
      (fun x y => (x, y) ∈ [("a", "b")]) a a :=
    acyclic_of_rank (fun s => if s = "a" then 1 else 0) (by decide)
  exact ⟨hnd, hne, hacyc,
    topologicalSort_acyclic_correct [("a", "b")] hnd hne hacyc⟩

/-- C2 (corrected): for duplicate-free edge lists with non-empty node
names, `topologicalSort` throws if and only if the edge set has a directed
cycle, and the thrown residual list is non-empty, duplicate-free, consists
of nodes of the input, and each residual node still has an unemitted
destination inside the residual (it never reached zero pending count). -/
theorem topologicalSort_error_iff (rel : List (String × String))
    (hrel : rel.Nodup) (hne : ∀ p ∈ rel, p.1 ≠ "" ∧ p.2 ≠ "") :
    ((∃ r, topologicalSort rel = .error r) ↔
      ∃ a, Relation.TransGen (fun x y => (x, y) ∈ rel) a a) ∧
    ∀ r, topologicalSort rel = .error r →
      r ≠ [] ∧ r.Nodup ∧ ∀ n ∈ r, isNode rel n ∧ ∃ d ∈ r, (n, d) ∈ rel := by
  rcases topologicalSort_spec rel hrel hne with hok | herr
  · obtain ⟨L, hL, hndL, _, hordL⟩ := hok
    constructor
    · constructor
      · rintro ⟨r, hr⟩
        rw [hL] at hr
        exact absurd hr (by simp)
      · rintro ⟨a, ha⟩
        exact absurd (transGen_before hndL hordL a a ha)
          (appearsBefore_irrefl hndL)
    · intro r hr
      rw [hL] at hr
      exact absurd hr (by simp)
  · obtain ⟨r, hr, hrne, hrnd, hres⟩ := herr
    constructor
    · constructor
      · intro _
        exact exists_transGen_cycle (fun x y => (x, y) ∈ rel) r hrne
          (fun x hx => (hres x hx).2)
      · intro _
        exact ⟨r, hr⟩
    · intro r2 hr2
      rw [hr] at hr2
      injection hr2 with h
      subst h
      exact ⟨hrne, hrnd, hres⟩

/-- C2 counterexample: a duplicated edge, as well as an empty-string
destination node, make the sorter throw although the edge set is acyclic,
so failure is not equivalent to the presence of a cycle. -/
theorem topologicalSort_C2_counterexample :
    (∀ a, ¬ Relation.TransGen
        (fun x y => (x, y) ∈ [("x", "y"), ("x", "y")]) a a) ∧
    topologicalSort [("x", "y"), ("x", "y")] = .error ["x"] ∧
    (∀ a, ¬ Relation.TransGen (fun x y => (x, y) ∈ [("a", "")]) a a) ∧
    topologicalSort [("a", "")] = .error ["a"] := by
  refine ⟨?_, rfl, ?_, rfl⟩
  · exact acyclic_of_rank (fun s => if s = "x" then 1 else 0) (by decide)
  · exact acyclic_of_rank (fun s => if s = "a" then 1 else 0) (by decide)

/-- C2 witness: the corrected statement applied to the cyclic edge list
`[("x", "y"), ("y", "x")]`. -/
theorem topologicalSort_C2_witness :
    ([("x", "y"), ("y", "x")] : List (String × String)).Nodup ∧
    (∀ p ∈ [("x", "y"), ("y", "x")], p.1 ≠ "" ∧ p.2 ≠ "") ∧
    (((∃ r, topologicalSort [("x", "y"), ("y", "x")] = .error r) ↔
      ∃ a, Relation.TransGen
        (fun x y => (x, y) ∈ [("x", "y"), ("y", "x")]) a a) ∧
    ∀ r, topologicalSort [("x", "y"), ("y", "x")] = .error r →
      r ≠ [] ∧ r.Nodup ∧ ∀ n ∈ r, isNode [("x", "y"), ("y", "x")] n ∧
        ∃ d ∈ r, (n, d) ∈ [("x", "y"), ("y", "x")]) := by
  have hnd : ([("x", "y"), ("y", "x")] : List (String × String)).Nodup := by
    decide
  have hne : ∀ p ∈ [("x", "y"), ("y", "x")], p.1 ≠ "" ∧ p.2 ≠ "" := by decide
  exact ⟨hnd, hne, topologicalSort_error_iff _ hnd hne⟩

/-- C3 (corrected): the sorter is deterministic as a pure function of the
edge list, and for duplicate-free acyclic lists with non-empty node names
that are equal as sets the two outputs enumerate the same nodes (they are
permutations of each other) — but the extraction order is not stable under
reordering of the input, so the output orders may differ. -/
theorem topologicalSort_same_edge_set (r1 r2 : List (String × String))
    (hset : ∀ p, p ∈ r1 ↔ p ∈ r2) (h1 : r1.Nodup) (h2 : r2.Nodup)
    (hne1 : ∀ p ∈ r1, p.1 ≠ "" ∧ p.2 ≠ "")
    (hacyc1 : ∀ a, ¬ Relation.TransGen (fun x y => (x, y) ∈ r1) a a) :
    ∃ L1 L2, topologicalSort r1 = .ok L1 ∧ topologicalSort r2 = .ok L2 ∧
      L1.Perm L2 := by
  have hne2 : ∀ p ∈ r2, p.1 ≠ "" ∧ p.2 ≠ "" :=
    fun p hp => hne1 p ((hset p).mpr hp)
  have hacyc2 : ∀ a, ¬ Relation.TransGen (fun x y => (x, y) ∈ r2) a a := by
    intro a ha
    exact hacyc1 a (ha.mono (fun x y hxy => (hset (x, y)).mpr hxy))
  obtain ⟨L1, hL1, hnd1, hmem1, _⟩ :=
    topologicalSort_acyclic_correct r1 h1 hne1 hacyc1
  obtain ⟨L2, hL2, hnd2, hmem2, _⟩ :=
    topologicalSort_acyclic_correct r2 h2 hne2 hacyc2
  refine ⟨L1, L2, hL1, hL2, ?_⟩
  rw [List.perm_ext_iff_of_nodup hnd1 hnd2]
  intro n
  rw [hmem1 n, hmem2 n]
  constructor
  · rintro ⟨p, hp, hc⟩
    exact ⟨p, (hset p).mp hp, hc⟩
  · rintro ⟨p, hp, hc⟩
    exact ⟨p, (hset p).mpr hp, hc⟩

/-- C3 counterexample: two edge lists that are equal as sets (one is a
permutation of the other) on which `topologicalSort` returns different
orders, refuting determinism with respect to the edge set. -/
theorem topologicalSort_C3_counterexample :
    (∀ p : String × String,
      p ∈ [("a", "b"), ("c", "d")] ↔ p ∈ [("c", "d"), ("a", "b")]) ∧
    topologicalSort [("a", "b"), ("c", "d")] = .ok ["d", "b", "c", "a"] ∧
    topologicalSort [("c", "d"), ("a", "b")] = .ok ["b", "d", "a", "c"] ∧
    (["d", "b", "c", "a"] : List String) ≠ ["b", "d", "a", "c"] := by
  refine ⟨?_, rfl, rfl, by decide⟩
  intro p
  simp only [List.mem_cons, List.not_mem_nil, or_false]
  tauto

/-- C3 witness: the corrected statement applied to the two permutations of
the acyclic edge set of the counterexample. -/
theorem topologicalSort_C3_witness :
    (∀ p : String × String,
      p ∈ [("a", "b"), ("c", "d")] ↔ p ∈ [("c", "d"), ("a", "b")]) ∧
    ([("a", "b"), ("c", "d")] : List (String × String)).Nodup ∧
    ([("c", "d"), ("a", "b")] : List (String × String)).Nodup ∧
    (∀ p ∈ [("a", "b"), ("c", "d")], p.1 ≠ "" ∧ p.2 ≠ "") ∧
    (∀ a, ¬ Relation.TransGen
      (fun x y => (x, y) ∈ [("a", "b"), ("c", "d")]) a a) ∧
    ∃ L1 L2, topologicalSort [("a", "b"), ("c", "d")] = .ok L1 ∧
      topologicalSort [("c", "d"), ("a", "b")] = .ok L2 ∧ L1.Perm L2 := by
  have hset : ∀ p : String × String,
      p ∈ [("a", "b"), ("c", "d")] ↔ p ∈ [("c", "d"), ("a", "b")] := by
    intro p
    simp only [List.mem_cons, List.not_mem_nil, or_false]
    tauto
  have h1 : ([("a", "b"), ("c", "d")] : List (String × String)).Nodup := by
    decide
  have h2 : ([("c", "d"), ("a", "b")] : List (String × String)).Nodup := by
    decide
  have hne1 : ∀ p ∈ [("a", "b"), ("c", "d")], p.1 ≠ "" ∧ p.2 ≠ "" := by
    decide
  have hacyc1 : ∀ a, ¬ Relation.TransGen
      (fun x y => (x, y) ∈ [("a", "b"), ("c", "d")]) a a :=
    acyclic_of_rank (fun s => if s = "a" ∨ s = "c" then 1 else 0) (by decide)
  exact ⟨hset, h1, h2, hne1, hacyc1,
    topologicalSort_same_edge_set _ _ hset h1 h2 hne1 hacyc1⟩

/-! ## Claims about the Task primitive and the planner closures -/

/-- C4 (confirmed): the `Task` lifecycle.  `run()` is a no-op outside
`pending`, so a second invocation changes nothing; a pending run first
moves to `running` and then, on resolution, to `success` storing the
returned message, or, on rejection, to `failed` storing the trimmed error
text; the status rank never decreases across any sequence of invocations;
and `done()` holds exactly in the terminal states. -/
theorem task_state_machine (t : TaskState) (o : JobOutcome)
    (m : Option String) (e : String) (outs : List JobOutcome) :
    (t.status ≠ .pending → runTask t o = t) ∧
    (t.status = .pending →
      runTask t o = finishTask (startTask t) o ∧
      (startTask t).status = .running) ∧
    (t.status = .pending →
      (runTask t (.resolve m)).status = .success ∧
      (runTask t (.resolve m)).message = m) ∧
    (t.status = .pending →
      (runTask t (.reject e)).status = .failed ∧
      (runTask t (.reject e)).error = some e.trim) ∧
    statusRank t.status ≤ statusRank (runTask t o).status ∧
    statusRank t.status ≤ statusRank (outs.foldl runTask t).status ∧
    (doneTask t = true ↔ t.status = .success ∨ t.status = .failed) ∧
    (doneTask t = true → runTask t o = t) := by
  have hmono : ∀ (s : TaskState) (o2 : JobOutcome),
      statusRank s.status ≤ statusRank (runTask s o2).status := by
    intro s o2
    by_cases h : s.status = .pending
    · rw [runTask, if_neg (by simp [h])]
      cases o2 <;> simp [h, finishTask, startTask, statusRank]
    · rw [runTask, if_pos h]
  refine ⟨?_, ?_, ?_, ?_, hmono t o, ?_, ?_, ?_⟩
  · intro h
    rw [runTask, if_pos h]
  · intro h
    constructor
    · rw [runTask, if_neg (by simp [h])]
    · rfl
  · intro h
    rw [runTask, if_neg (by simp [h])]
    exact ⟨rfl, rfl⟩
  · intro h
    rw [runTask, if_neg (by simp [h])]
    exact ⟨rfl, rfl⟩
  · induction outs generalizing t with
    | nil => exact Nat.le_refl _
    | cons o2 os ih =>
      rw [List.foldl_cons]
      exact Nat.le_trans (hmono t o2) (ih (runTask t o2))
  · cases h : t.status <;> simp [doneTask, h]
  · intro h
    have hp : t.status ≠ .pending := by
      intro hp
      simp [doneTask, hp] at h
    rw [runTask, if_pos hp]

/-- C4 witness: the lifecycle theorem applied to concrete task states,
discharging every status hypothesis by computation. -/
theorem task_state_machine_witness :
    runTask ⟨.running, none, none⟩ (.resolve (some "m"))
      = (⟨.running, none, none⟩ : TaskState) ∧
    (runTask TaskState.initial (.resolve (some "ok"))).status = .success ∧
    (runTask TaskState.initial (.resolve (some "ok"))).message = some "ok" ∧
    (runTask TaskState.initial (.reject " boom ")).error
      = some (" boom ".trim) := by
  refine ⟨?_, ?_, ?_, ?_⟩
  · exact (task_state_machine ⟨.running, none, none⟩
      (.resolve (some "m")) none "" []).1 (by decide)
  · exact ((task_state_machine TaskState.initial (.resolve (some "ok"))
      (some "ok") "" []).2.2.1 rfl).1
  · exact ((task_state_machine TaskState.initial (.resolve (some "ok"))
      (some "ok") "" []).2.2.1 rfl).2
  · exact ((task_state_machine TaskState.initial (.reject " boom ")
      none " boom " []).2.2.2.1 rfl).2

/-- C6 (corrected): a planner task closure suspends exactly when some
awaited task (dependency-node task or earlier same-node task) has failed,
and it then never reaches the deploy executor; but the names joined into
the message are exactly the failed tasks of the dependency namespaces —
an earlier failed task of the own namespace triggers the suspension
without being named. -/
theorem planTaskClosure_spec (dag : List (String × List PlanTask))
    (deps : List String) (ns : String) (ix : Nat) :
    ((∃ t ∈ awaitedTasks dag deps ns ix, t.status = .failed) →
      planTaskClosure dag deps ns ix
        = .suspended ("Suspended: Parent job is faild: "
            ++ String.intercalate ", " (failedParentNames dag deps)) ∧
      planTaskClosure dag deps ns ix ≠ .deploy) ∧
    ((∀ t ∈ awaitedTasks dag deps ns ix, t.status ≠ .failed) →
      planTaskClosure dag deps ns ix = .deploy) ∧
    (∀ nm, nm ∈ failedParentNames dag deps ↔
      ∃ t ∈ (deps.map (fun d => dagTasks dag d)).flatten,
        t.status = .failed ∧ t.name = nm) := by
  refine ⟨?_, ?_, ?_⟩
  · intro hex
    have hany : (awaitedTasks dag deps ns ix).any
        (fun t => decide (t.status = .failed)) = true := by
      rw [List.any_eq_true]
      obtain ⟨t, ht, hf⟩ := hex
      exact ⟨t, ht, by simp [hf]⟩
    unfold planTaskClosure
    rw [if_pos hany]
    exact ⟨rfl, by simp⟩
  · intro hall
    have hany : (awaitedTasks dag deps ns ix).any
        (fun t => decide (t.status = .failed)) = false := by
      rw [List.any_eq_false]
      intro t ht
      simp [hall t ht]
    unfold planTaskClosure
    rw [if_neg (by simp [hany])]
  · intro nm
    unfold failedParentNames
    simp only [List.mem_map, List.mem_filter, decide_eq_true_eq]
    constructor
    · rintro ⟨t, ⟨htmem, hfail⟩, hname⟩
      exact ⟨t, htmem, hfail, hname⟩
    · rintro ⟨t, htmem, hfail, hname⟩
      exact ⟨t, ⟨htmem, hfail⟩, hname⟩

/-- C6 counterexample: the first task of a namespace has failed and is
awaited by the second task of the same namespace, yet the suspension
message contains no names at all — the failed predecessor is not named. -/
theorem planTaskClosure_C6_counterexample :
    (⟨"t0", .failed⟩ : PlanTask) ∈
      awaitedTasks [("ns", [⟨"t0", .failed⟩, ⟨"t1", .running⟩])] [] "ns" 1 ∧
    failedParentNames [("ns", [⟨"t0", .failed⟩, ⟨"t1", .running⟩])] [] = [] ∧
    planTaskClosure [("ns", [⟨"t0", .failed⟩, ⟨"t1", .running⟩])] [] "ns" 1
      = .suspended "Suspended: Parent job is faild: " := by
  refine ⟨by decide, rfl, rfl⟩

/-- C6 witness: the corrected statement applied to a two-namespace DAG
with a failed dependency task, and to the same DAG with the dependency
succeeded. -/
theorem planTaskClosure_C6_witness :
    planTaskClosure [("A", [⟨"a0", .failed⟩]), ("B", [⟨"b0", .pending⟩])]
        ["A"] "B" 0
      = .suspended ("Suspended: Parent job is faild: "
          ++ String.intercalate ", " (failedParentNames
              [("A", [⟨"a0", .failed⟩]), ("B", [⟨"b0", .pending⟩])] ["A"])) ∧
    planTaskClosure [("A", [⟨"a0", .success⟩]), ("B", [⟨"b0", .pending⟩])]
        ["A"] "B" 0 = .deploy := by
  constructor
  · exact ((planTaskClosure_spec
      [("A", [⟨"a0", .failed⟩]), ("B", [⟨"b0", .pending⟩])] ["A"] "B" 0).1
        ⟨⟨"a0", .failed⟩, by decide, rfl⟩).1
  · exact (planTaskClosure_spec
      [("A", [⟨"a0", .success⟩]), ("B", [⟨"b0", .pending⟩])] ["A"] "B" 0).2.1
        (by decide)

/-- C7 (code bug): the self-reference filter of `pushBigQueryResourecs`
shadows the file-path variable, comparing each dependency with `path2bq`
of the dependency identifier itself, so a file whose SQL references its
own namespace keeps that namespace in its dependency list. -/
theorem jobDependencies_self_not_excluded :
    path2bq "bigquery/@default/ds/tbl/ddl.sql" "bigquery" "pj"
      = "pj.ds.tbl" ∧
    jobDependencies "bigquery" "pj" "bigquery/@default/ds/tbl/ddl.sql"
        ["ds.tbl"] = ["pj.ds", "pj.ds.tbl"] ∧
    "pj.ds.tbl" ∈ jobDependencies "bigquery" "pj"
        "bigquery/@default/ds/tbl/ddl.sql" ["ds.tbl"] := by
  refine ⟨rfl, rfl, ?_⟩
  have h : jobDependencies "bigquery" "pj"
      "bigquery/@default/ds/tbl/ddl.sql" ["ds.tbl"]
      = ["pj.ds", "pj.ds.tbl"] := rfl
  rw [h]
  simp

/-- C8 (code bug): for `view.sql` in dry-run mode the executor submits the
composed `CREATE OR REPLACE VIEW` dry-run query, but it returns the
estimated bytes only when the response carries `totalBytesProcessed`;
when the statistic is absent it falls through to the non-dry-run path and
creates the view. -/
theorem deployViewSql_dry_run_creates :
    (deployViewSql ⟨true, none, false⟩ "ds" "v" "SELECT 1").1
      = [.createQueryJob "CREATE OR REPLACE VIEW `ds.v` as\nSELECT 1" true,
         .tableExists "ds" "v", .createTable "ds" "v" "SELECT 1",
         .syncMetadataPush] ∧
    BQCall.createTable "ds" "v" "SELECT 1"
      ∈ (deployViewSql ⟨true, none, false⟩ "ds" "v" "SELECT 1").1 ∧
    deployViewSql ⟨true, some 100, false⟩ "ds" "v" "SELECT 1"
      = ([.createQueryJob "CREATE OR REPLACE VIEW `ds.v` as\nSELECT 1" true],
         some "100B") := by
  have h1 : (deployViewSql ⟨true, none, false⟩ "ds" "v" "SELECT 1").1
      = [.createQueryJob "CREATE OR REPLACE VIEW `ds.v` as\nSELECT 1" true,
         .tableExists "ds" "v", .createTable "ds" "v" "SELECT 1",
         .syncMetadataPush] := rfl
  refine ⟨h1, ?_, rfl⟩
  rw [h1]
  simp

/-- C9 (confirmed): a reconciliation deletion task logs and, only outside
dry-run mode, attempts the delete; the `catch` swallows a failing delete,
so the closure always resolves and the task always ends in `success`. -/
theorem cleanupDeleteTask_spec (isDryRun deleteFails : Bool)
    (bqId : String) :
    (isDryRun = true →
      (cleanupDeleteTaskRun isDryRun deleteFails bqId).1
        = [.logErr ("(DRYRUN) " ++ "Deleting " ++ bqId)] ∧
      CleanupEffect.deleteResource bqId
        ∉ (cleanupDeleteTaskRun isDryRun deleteFails bqId).1) ∧
    (isDryRun = false →
      CleanupEffect.deleteResource bqId
        ∈ (cleanupDeleteTaskRun isDryRun deleteFails bqId).1) ∧
    (cleanupDeleteTaskRun isDryRun deleteFails bqId).2 = .resolve none ∧
    (runTask TaskState.initial
        (cleanupDeleteTaskRun isDryRun deleteFails bqId).2).status
      = .success := by
  refine ⟨?_, ?_, rfl, ?_⟩
  · intro h
    subst h
    exact ⟨rfl, by simp [cleanupDeleteTaskRun, cleanupTryBody]⟩
  · intro h
    subst h
    simp [cleanupDeleteTaskRun, cleanupTryBody]
  · have h2 : (cleanupDeleteTaskRun isDryRun deleteFails bqId).2
        = .resolve none := rfl
    rw [h2]
    rfl

/-- C9 witness: the deletion-task theorem applied with concrete flags,
including a failing delete that is swallowed. -/
theorem cleanupDeleteTask_witness :
    CleanupEffect.deleteResource "p.d.t"
      ∉ (cleanupDeleteTaskRun true true "p.d.t").1 ∧
    CleanupEffect.deleteResource "p.d.t"
      ∈ (cleanupDeleteTaskRun false true "p.d.t").1 ∧
    (runTask TaskState.initial
        (cleanupDeleteTaskRun false true "p.d.t").2).status = .success := by
  refine ⟨((cleanupDeleteTask_spec true true "p.d.t").1 rfl).2,
    (cleanupDeleteTask_spec false true "p.d.t").2.1 rfl,
    (cleanupDeleteTask_spec false true "p.d.t").2.2.2⟩

/-- C10 (confirmed): `options?.dryRun ?? true` defaults to dry-run when
the options object is absent or its `dryRun` field is undefined; the flag
is false exactly when `dryRun` is explicitly `false`; and in dry-run mode
the deletion task never emits a delete. -/
theorem cleanupIsDryRun_default (o : Option CleanupOptions) (df : Bool)
    (bqId : String) :
    cleanupIsDryRun none = true ∧
    (∀ w, cleanupIsDryRun (some ⟨none, w⟩) = true) ∧
    (cleanupIsDryRun o = false ↔ ∃ w, o = some ⟨some false, w⟩) ∧
    (cleanupIsDryRun o = true →
      CleanupEffect.deleteResource bqId
        ∉ (cleanupDeleteTaskRun (cleanupIsDryRun o) df bqId).1) := by
  refine ⟨rfl, fun w => rfl, ?_, ?_⟩
  · constructor
    · intro h
      match o with
      | none => simp [cleanupIsDryRun] at h
      | some ⟨none, w⟩ => simp [cleanupIsDryRun] at h
      | some ⟨some b, w⟩ =>
        have hb : b = false := by
          simpa [cleanupIsDryRun] using h
        exact ⟨w, by rw [hb]⟩
    · rintro ⟨w, rfl⟩
      rfl
  · intro h
    rw [h]
    simp [cleanupDeleteTaskRun, cleanupTryBody]

/-- C10 witness: the defaulting theorem applied to concrete option
values. -/
theorem cleanupIsDryRun_default_witness :
    cleanupIsDryRun (some ⟨some false, true⟩) = false ∧
    CleanupEffect.deleteResource "x"
      ∉ (cleanupDeleteTaskRun (cleanupIsDryRun none) false "x").1 := by
  constructor
  · exact (cleanupIsDryRun_default (some ⟨some false, true⟩) false
      "x").2.2.1.mpr ⟨true, rfl⟩
  · exact (cleanupIsDryRun_default none false "x").2.2.2 rfl

end BQPorter
